import Mathlib

/-!
Verification development for `simple-live-server/server.js`.

The development shallowly embeds the three cores of the server:

* the streaming HTML injection transform (`HtmlInjectTransform`), embedded as a
  state machine over decoded character lists (`transformStep`, `flushStep`,
  `runTransform`, `processAll`), with a byte-level front end that models the
  per-chunk `Buffer.toString('utf8')` decode (`utf8DecodeNode`, `byteProcessAll`);
* the path resolution and confinement logic (`safeDecodeURIComponent`,
  `isPathInside`, `resolveRequestToFilePath`) over a model of the Node `path`
  module for POSIX paths (`pathNormalize`, `pathJoin`, `pathRelative`);
* the request handler (`requestHandler`) and the reload broadcast
  (`broadcastReload`, `watchCallback`).
-/

/-- The exact `LIVE_RELOAD_SCRIPT` template string from `server.js`
(braces and apostrophes written as escape codes). -/
def LIVE_RELOAD_SCRIPT : String :=
  "\n<script>\n(function () \x7b\n  const wsUrl = (location.protocol === \x27https:\x27 ? \x27wss://\x27 : \x27ws://\x27) + location.host;\n  const socket = new WebSocket(wsUrl);\n\n  socket.addEventListener(\x27message\x27, function (event) \x7b\n    if (event.data === \x27reload\x27) \x7b\n      location.reload();\n    \x7d\n  \x7d);\n\n  socket.addEventListener(\x27close\x27, function () \x7b\n    // optional: try reconnect (simple)\n    setTimeout(function () \x7b location.reload(); \x7d, 500);\n  \x7d);\n\x7d)();\n</script>\n"

/-- The closing-body marker searched for by the transform: `'</body>'`. -/
def marker : List Char := "</body>".data

/-- The replacement written by `this._buffer.replace('</body>', LIVE_RELOAD_SCRIPT + '\n</body>')`. -/
def injectedTag : List Char := LIVE_RELOAD_SCRIPT.data ++ '\n' :: marker

/-- Model of JavaScript `String.prototype.includes` on character lists:
`strIncludes s pat` is true when `pat` occurs contiguously in `s`. -/
def strIncludes : List Char → List Char → Bool
  | [], pat => pat.isPrefixOf ([] : List Char)
  | c :: rest, pat => pat.isPrefixOf (c :: rest) || strIncludes rest pat

/-- Model of JavaScript `String.prototype.replace` with a string pattern:
replaces the first occurrence of `pat` by `repl`, the input unchanged when
`pat` does not occur. -/
def replaceFirst : List Char → List Char → List Char → List Char
  | [], pat, repl => if pat.isPrefixOf ([] : List Char) then repl else []
  | c :: rest, pat, repl =>
    if pat.isPrefixOf (c :: rest) then repl ++ (c :: rest).drop pat.length
    else c :: replaceFirst rest pat repl

/-- The per-stream mutable state of one `HtmlInjectTransform` instance:
`this._buffer` and `this._injected`. -/
structure InjState where
  buffer : List Char
  injected : Bool

/-- One `_transform(chunk, encoding, callback)` call on a decoded chunk:
returns the new state and the characters pushed during the call. -/
def transformStep (s : InjState) (chunk : List Char) : InjState × List Char :=
  let buf := s.buffer ++ chunk
  if !s.injected && strIncludes buf marker then
    (⟨[], true⟩, replaceFirst buf marker injectedTag)
  else if decide (64 * 1024 < buf.length) && !s.injected then
    (⟨buf.drop (32 * 1024), s.injected⟩, buf.take (32 * 1024))
  else
    (⟨buf, s.injected⟩, [])

/-- One `_flush(callback)` call: the characters pushed when the stream ends. -/
def flushStep (s : InjState) : List Char :=
  if !s.injected then s.buffer ++ LIVE_RELOAD_SCRIPT.data else s.buffer

/-- Run `_transform` over a list of decoded chunks from a given state:
final state together with everything pushed along the way. -/
def runTransform (s : InjState) : List (List Char) → InjState × List Char
  | [] => (s, [])
  | c :: cs =>
    let r := transformStep s c
    let rest := runTransform r.1 cs
    (rest.1, r.2 ++ rest.2)

/-- The complete output of one `HtmlInjectTransform` stream over the given
chunks: everything pushed by `_transform` calls followed by `_flush`. -/
def processAll (chunks : List (List Char)) : List Char :=
  let r := runTransform ⟨[], false⟩ chunks
  r.2 ++ flushStep r.1

/-- Model of Node `Buffer.prototype.toString('utf8')` on a byte list:
WHATWG-style UTF-8 decoding where malformed or truncated sequences become
U+FFFD replacement characters. Each chunk is decoded independently by
`_transform`, so a multi-byte character split across chunks is corrupted.
The first argument is fuel (one unit per consumed byte suffices); it keeps
the recursion structural. -/
def utf8DecodeAux : Nat → List Nat → List Char
  | 0, _ => []
  | _, [] => []
  | fuel + 1, b :: rest =>
    if b < 0x80 then Char.ofNat b :: utf8DecodeAux fuel rest
    else if 0xC2 ≤ b ∧ b ≤ 0xDF then
      match rest with
      | [] => ['�']
      | b2 :: rest2 =>
        if 0x80 ≤ b2 ∧ b2 ≤ 0xBF then
          Char.ofNat ((b - 0xC0) * 64 + (b2 - 0x80)) :: utf8DecodeAux fuel rest2
        else '�' :: utf8DecodeAux fuel rest
    else if 0xE0 ≤ b ∧ b ≤ 0xEF then
      match rest with
      | [] => ['�']
      | b2 :: rest2 =>
        if (if b = 0xE0 then 0xA0 ≤ b2 ∧ b2 ≤ 0xBF
            else if b = 0xED then 0x80 ≤ b2 ∧ b2 ≤ 0x9F
            else 0x80 ≤ b2 ∧ b2 ≤ 0xBF) then
          match rest2 with
          | [] => ['�']
          | b3 :: rest3 =>
            if 0x80 ≤ b3 ∧ b3 ≤ 0xBF then
              Char.ofNat ((b - 0xE0) * 4096 + (b2 - 0x80) * 64 + (b3 - 0x80)) :: utf8DecodeAux fuel rest3
            else '�' :: utf8DecodeAux fuel rest2
        else '�' :: utf8DecodeAux fuel rest
    else if 0xF0 ≤ b ∧ b ≤ 0xF4 then
      match rest with
      | [] => ['�']
      | b2 :: rest2 =>
        if (if b = 0xF0 then 0x90 ≤ b2 ∧ b2 ≤ 0xBF
            else if b = 0xF4 then 0x80 ≤ b2 ∧ b2 ≤ 0x8F
            else 0x80 ≤ b2 ∧ b2 ≤ 0xBF) then
          match rest2 with
          | [] => ['�']
          | b3 :: rest3 =>
            if 0x80 ≤ b3 ∧ b3 ≤ 0xBF then
              match rest3 with
              | [] => ['�']
              | b4 :: rest4 =>
                if 0x80 ≤ b4 ∧ b4 ≤ 0xBF then
                  Char.ofNat ((b - 0xF0) * 262144 + (b2 - 0x80) * 4096 + (b3 - 0x80) * 64 + (b4 - 0x80)) :: utf8DecodeAux fuel rest4
                else '�' :: utf8DecodeAux fuel rest3
            else '�' :: utf8DecodeAux fuel rest2
        else '�' :: utf8DecodeAux fuel rest
    else '�' :: utf8DecodeAux fuel rest

/-- Decode a byte chunk as `chunk.toString('utf8')` does. -/
def utf8DecodeNode (bs : List Nat) : List Char := utf8DecodeAux bs.length bs

/-- The complete output of one `HtmlInjectTransform` stream over raw byte
chunks, each chunk decoded by `chunk.toString('utf8')` as in the source. -/
def byteProcessAll (chunks : List (List Nat)) : List Char :=
  processAll (chunks.map utf8DecodeNode)

/-- Split a character list on a separator character (as `'a/b'.split('/')`
or taking heads of `value.split('?')`). Never returns an empty list. -/
def splitOnChar (sep : Char) : List Char → List (List Char)
  | [] => [[]]
  | c :: rest =>
    let r := splitOnChar sep rest
    if c = sep then [] :: r
    else
      match r with
      | seg :: segs => (c :: seg) :: segs
      | [] => [[c]]

/-- JavaScript `value.split(sep)[0]`. -/
def splitFirst (sep : Char) (s : String) : String :=
  String.mk ((splitOnChar sep s.data).headD [])

/-- Model of JavaScript `s.startsWith(pre)`. -/
def strStartsWith (s pre : String) : Bool := pre.data.isPrefixOf s.data

/-- Model of Node `path.posix.isAbsolute`: a nonempty path starting with `'/'`. -/
def pathIsAbsolute (p : String) : Bool :=
  match p.data with
  | [] => false
  | c :: _ => c = '/'

/-- Node's `normalizeString` segment pass: drop empty and `'.'` segments,
make `'..'` pop the last real segment; with `allowAboveRoot` (relative
paths) leading `'..'` segments are kept, otherwise (absolute paths) they
are dropped at the root. -/
def normSegs (allowAboveRoot : Bool) (segs : List (List Char)) : List (List Char) :=
  (segs.foldl (fun acc seg =>
    if seg = [] then acc
    else if seg = ['.'] then acc
    else if seg = ['.', '.'] then
      match acc with
      | top :: rest => if top = ['.', '.'] then seg :: top :: rest else rest
      | [] => if allowAboveRoot then [seg] else []
    else seg :: acc) []).reverse

/-- Join segments with `'/'` separators (`Array.prototype.join('/')`). -/
def intercalateSlash : List (List Char) → List Char
  | [] => []
  | [s] => s
  | s :: rest => s ++ '/' :: intercalateSlash rest

/-- Model of Node `path.posix.normalize`. -/
def pathNormalize (p : String) : String :=
  let cs := p.data
  let isAbs := pathIsAbsolute p
  let trailing := decide (cs.getLast? = some '/')
  let body := intercalateSlash (normSegs (!isAbs) (splitOnChar '/' cs))
  if body = [] then
    (if isAbs then "/" else if trailing then "./" else ".")
  else
    String.mk ((if isAbs then '/' :: body else body) ++ (if trailing then ['/'] else []))

/-- Model of Node `path.posix.join` on two arguments: concatenate the
nonempty arguments with `'/'` and normalize. -/
def pathJoin (a b : String) : String :=
  if a = "" ∧ b = "" then "."
  else if a = "" then pathNormalize b
  else if b = "" then pathNormalize a
  else pathNormalize (String.mk (a.data ++ '/' :: b.data))

/-- The sanitized segments of an absolute POSIX path (the segment view Node
`path.resolve` produces for an already-absolute argument). -/
def absSegs (p : String) : List (List Char) := normSegs false (splitOnChar '/' p.data)

/-- Length of the longest common prefix of two segment lists. -/
def commonPrefixLen : List (List Char) → List (List Char) → Nat
  | a :: as, b :: bs => if a = b then commonPrefixLen as bs + 1 else 0
  | _, _ => 0

/-- Model of Node `path.posix.relative` for the absolute paths the server
passes to it: one `'..'` per segment of `f` past the common prefix, then the
remaining segments of `t`. -/
def pathRelative (f t : String) : String :=
  let fs := absSegs f
  let ts := absSegs t
  let k := commonPrefixLen fs ts
  String.mk (intercalateSlash (List.replicate (fs.length - k) ['.', '.'] ++ ts.drop k))

/-- `isPathInside(parent, child)` from `server.js`: the relative path from
`parent` to `child` is nonempty, does not start with `'..'`, and is not
absolute. -/
def isPathInside (parent child : String) : Bool :=
  let relative := pathRelative parent child
  !(relative == "") && !(strStartsWith relative "..") && !(pathIsAbsolute relative)

/-- Hexadecimal digit value of a character, `none` for non-hex characters. -/
def hexVal (c : Char) : Option Nat :=
  let n := c.toNat
  if 48 ≤ n ∧ n ≤ 57 then some (n - 48)
  else if 65 ≤ n ∧ n ≤ 70 then some (n - 55)
  else if 97 ≤ n ∧ n ≤ 102 then some (n - 87)
  else none

/-- Model of the ECMAScript `decodeURIComponent` character scan: `'%'` must
be followed by two hex digits; a byte with the high bit set must begin a
valid strictly-encoded UTF-8 sequence whose continuation bytes are likewise
percent-encoded; any violation is a decode failure (`none`, for the thrown
`URIError`). -/
def decodeSeq : List Char → Option (List Char)
  | [] => some []
  | '%' :: rest =>
    (match rest with
    | h1 :: l1 :: rest1 =>
      match hexVal h1, hexVal l1 with
      | some a1, some b1 =>
        let byte1 := 16 * a1 + b1
        if byte1 < 0x80 then
          match decodeSeq rest1 with
          | some t => some (Char.ofNat byte1 :: t)
          | none => none
        else if 0xC2 ≤ byte1 ∧ byte1 ≤ 0xDF then
          match rest1 with
          | '%' :: h2 :: l2 :: rest2 =>
            match hexVal h2, hexVal l2 with
            | some a2, some b2 =>
              let byte2 := 16 * a2 + b2
              if 0x80 ≤ byte2 ∧ byte2 ≤ 0xBF then
                match decodeSeq rest2 with
                | some t => some (Char.ofNat ((byte1 - 0xC0) * 64 + (byte2 - 0x80)) :: t)
                | none => none
              else none
            | _, _ => none
          | _ => none
        else if 0xE0 ≤ byte1 ∧ byte1 ≤ 0xEF then
          match rest1 with
          | '%' :: h2 :: l2 :: '%' :: h3 :: l3 :: rest3 =>
            match hexVal h2, hexVal l2, hexVal h3, hexVal l3 with
            | some a2, some b2, some a3, some b3 =>
              let byte2 := 16 * a2 + b2
              let byte3 := 16 * a3 + b3
              if (if byte1 = 0xE0 then 0xA0 ≤ byte2 ∧ byte2 ≤ 0xBF
                  else if byte1 = 0xED then 0x80 ≤ byte2 ∧ byte2 ≤ 0x9F
                  else 0x80 ≤ byte2 ∧ byte2 ≤ 0xBF) ∧ 0x80 ≤ byte3 ∧ byte3 ≤ 0xBF then
                match decodeSeq rest3 with
                | some t =>
                  some (Char.ofNat ((byte1 - 0xE0) * 4096 + (byte2 - 0x80) * 64 + (byte3 - 0x80)) :: t)
                | none => none
              else none
            | _, _, _, _ => none
          | _ => none
        else if 0xF0 ≤ byte1 ∧ byte1 ≤ 0xF4 then
          match rest1 with
          | '%' :: h2 :: l2 :: '%' :: h3 :: l3 :: '%' :: h4 :: l4 :: rest4 =>
            match hexVal h2, hexVal l2, hexVal h3, hexVal l3, hexVal h4, hexVal l4 with
            | some a2, some b2, some a3, some b3, some a4, some b4 =>
              let byte2 := 16 * a2 + b2
              let byte3 := 16 * a3 + b3
              let byte4 := 16 * a4 + b4
              if (if byte1 = 0xF0 then 0x90 ≤ byte2 ∧ byte2 ≤ 0xBF
                  else if byte1 = 0xF4 then 0x80 ≤ byte2 ∧ byte2 ≤ 0x8F
                  else 0x80 ≤ byte2 ∧ byte2 ≤ 0xBF) ∧
                 (0x80 ≤ byte3 ∧ byte3 ≤ 0xBF) ∧ (0x80 ≤ byte4 ∧ byte4 ≤ 0xBF) then
                match decodeSeq rest4 with
                | some t =>
                  some (Char.ofNat ((byte1 - 0xF0) * 262144 + (byte2 - 0x80) * 4096 +
                    (byte3 - 0x80) * 64 + (byte4 - 0x80)) :: t)
                | none => none
              else none
            | _, _, _, _, _, _ => none
          | _ => none
        else none
      | _, _ => none
    | _ => none)
  | c :: rest =>
    match decodeSeq rest with
    | some t => some (c :: t)
    | none => none

/-- `decodeURIComponent(value)` as a total function: `none` models the
thrown `URIError`. -/
def decodeURIComponentOpt (s : String) : Option String :=
  (decodeSeq s.data).map String.mk

/-- `safeDecodeURIComponent` from `server.js`: try to decode, fall back to
the raw value when decoding fails. -/
def safeDecodeURIComponent (value : String) : String :=
  match decodeURIComponentOpt value with
  | some d => d
  | none => value

/-- The query/fragment stripping and root-defaulting prefix of
`resolveRequestToFilePath`: `urlPathname.split('?')[0].split('#')[0]`,
then `'/' -> '/index.html'`. -/
def requestPathNormalized (urlPathname : String) : String :=
  let cleanPath := splitFirst '#' (splitFirst '?' urlPathname)
  if cleanPath = "/" then "/index.html" else cleanPath

/-- `resolveRequestToFilePath` from `server.js`, parametrized by the served
root (`TARGET_DIR`); `none` models the rejected (`null`) result. -/
def resolveRequestToFilePath (targetDir urlPathname : String) : Option String :=
  let decoded := safeDecodeURIComponent (requestPathNormalized urlPathname)
  let candidate := pathJoin targetDir decoded
  if isPathInside targetDir candidate then some candidate else none

/-- Model of Node `path.posix.extname`: the suffix of the basename from its
last `'.'`, empty for dotfiles, names without a dot, and `'..'`. -/
def extname (p : String) : String :=
  let bn := (splitOnChar '/' p.data).getLastD []
  if bn = ['.', '.'] then ""
  else
    let afterDot := (bn.reverse.takeWhile (fun c => !(c = '.'))).length
    if afterDot = bn.length then ""
    else if bn.length - afterDot - 1 = 0 then ""
    else String.mk (bn.drop (bn.length - afterDot - 1))

/-- JavaScript `s.toLowerCase()` (ASCII case folding suffices here). -/
def strToLower (s : String) : String := String.mk (s.data.map Char.toLower)

/-- Observable actions on the HTTP response object. -/
inductive HttpEvent where
  | header (status : Nat)
  | body (content : List Char)
  | endResponse
deriving DecidableEq

/-- The part of an incoming request the handler inspects. -/
structure Request where
  url : Option String
  method : String

/-- Outcome of the `fs.stat` callback: an error, a non-regular file, or a
regular file. -/
inductive StatResult where
  | statError
  | statNotFile
  | statFile

/-- Outcome of reading the opened file: either the full chunk sequence, or a
read error after some prefix of chunks was delivered. -/
inductive ReadOutcome where
  | ok (chunks : List (List Char))
  | readError (pre : List (List Char))

/-- `sendError(res, statusCode, message)` from `server.js`. -/
def sendError (status : Nat) (message : String) : List HttpEvent :=
  [HttpEvent.header status, HttpEvent.body message.data, HttpEvent.endResponse]

/-- Whether a header has been written among the given events
(`res.headersSent`). -/
def hasHeader (evs : List HttpEvent) : Bool :=
  evs.any fun e => match e with | .header _ => true | _ => false

/-- The `readStream.on('error', ...)` callback from `server.js`: a 500
response when headers are not yet sent, otherwise just `res.end()`. -/
def readStreamErrorHandler (headersSent : Bool) : List HttpEvent :=
  if !headersSent then sendError 500 "Internal Server Error"
  else [HttpEvent.endResponse]

/-- The HTTP request handler from `server.js`, as the list of response
events it produces: 400 on a missing url, 405 on a non-GET method, 403 on a
rejected path, 404 on stat failure or a non-regular file; otherwise a 200
header followed by the file bytes, piped through `HtmlInjectTransform` for
`.html` files, and on a mid-stream read error the error callback applied to
the `headersSent` state at that point. -/
def requestHandler (targetDir : String) (req : Request) (st : StatResult)
    (rd : ReadOutcome) : List HttpEvent :=
  match req.url with
  | none => sendError 400 "Bad Request"
  | some u =>
    if req.method ≠ "GET" then sendError 405 "Method Not Allowed"
    else
      match resolveRequestToFilePath targetDir u with
      | none => sendError 403 "Forbidden"
      | some filePath =>
        match st with
        | .statError => sendError 404 "Not Found"
        | .statNotFile => sendError 404 "Not Found"
        | .statFile =>
          let ext := strToLower (extname filePath)
          if ext = ".html" then
            match rd with
            | .ok chunks =>
              [HttpEvent.header 200, HttpEvent.body (processAll chunks), HttpEvent.endResponse]
            | .readError pre =>
              let before := [HttpEvent.header 200, HttpEvent.body (runTransform ⟨[], false⟩ pre).2]
              before ++ readStreamErrorHandler (hasHeader before)
          else
            match rd with
            | .ok chunks =>
              HttpEvent.header 200 :: chunks.map HttpEvent.body ++ [HttpEvent.endResponse]
            | .readError pre =>
              let before := HttpEvent.header 200 :: pre.map HttpEvent.body
              before ++ readStreamErrorHandler (hasHeader before)

/-- The response body bytes contained in a list of events. -/
def bodyBytes (evs : List HttpEvent) : List Char :=
  evs.foldr (fun e acc => match e with | .body s => s ++ acc | _ => acc) []

/-- `ws` client ready states (`WebSocket.OPEN` etc.). -/
inductive WsReadyState where
  | connecting
  | opened
  | closing
  | closed
deriving DecidableEq

/-- A connected live-reload channel: identity, ready state, and whether a
send attempt on it succeeds (a disconnected or failing client has
`sendOk = false`; `ws`'s `send` reports such failures asynchronously and
never throws into the caller). -/
structure WsClient where
  clientId : Nat
  readyState : WsReadyState
  sendOk : Bool
deriving DecidableEq

/-- One `client.send(msg)` call: the attempt it records. -/
structure SendAttempt where
  clientId : Nat
  message : String
  delivered : Bool
deriving DecidableEq

/-- The send attempt `client.send(msg)` makes. -/
def wsSend (c : WsClient) (msg : String) : SendAttempt :=
  ⟨c.clientId, msg, c.sendOk⟩

/-- `broadcastReload` from `server.js`: iterate over `wss.clients` and send
`'reload'` to every client in the OPEN state. -/
def broadcastReload (clients : List WsClient) : List SendAttempt :=
  clients.foldl (fun acc client =>
    if client.readyState = WsReadyState.opened then acc ++ [wsSend client "reload"]
    else acc) []

/-- The `fs.watch` callback from `server.js`: broadcast only for `'change'`
events. -/
def watchCallback (eventType : String) (clients : List WsClient) : List SendAttempt :=
  if eventType = "change" then broadcastReload clients else []

/-- Invariant tying the input consumed so far, the transform state, and the
output pushed so far. Before injection the buffer is marker-free and the
consumed input behaves, for every possible continuation, like the buffer
prefixed by the already-pushed output; after injection the output plus the
buffer is exactly the consumed input with the injection performed. -/
def TransformInv (inp : List Char) (st : InjState) (out : List Char) : Prop :=
  match st.injected with
  | true =>
      strIncludes inp marker = true ∧
      out ++ st.buffer = replaceFirst inp marker injectedTag
  | false =>
      strIncludes st.buffer marker = false ∧
      (∀ f, strIncludes (inp ++ f) marker = strIncludes (st.buffer ++ f) marker) ∧
      (∀ f, replaceFirst (inp ++ f) marker injectedTag =
        out ++ replaceFirst (st.buffer ++ f) marker injectedTag)

theorem isPrefixOf_iff (p s : List Char) : p.isPrefixOf s = true ↔ ∃ t, p ++ t = s := by
  induction p generalizing s with
  | nil => simp [List.isPrefixOf]
  | cons a as ih =>
    cases s with
    | nil => simp [List.isPrefixOf]
    | cons b bs =>
      simp only [List.isPrefixOf, Bool.and_eq_true, beq_iff_eq, ih, List.cons_append,
        List.cons.injEq]
      constructor
      · rintro ⟨rfl, t, rfl⟩; exact ⟨t, rfl, rfl⟩
      · rintro ⟨t, rfl, rfl⟩; exact ⟨rfl, t, rfl⟩

theorem strIncludes_cons (c : Char) (rest pat : List Char) :
    strIncludes (c :: rest) pat = (pat.isPrefixOf (c :: rest) || strIncludes rest pat) := rfl

theorem strIncludes_iff (s pat : List Char) :
    strIncludes s pat = true ↔ ∃ a b, a ++ pat ++ b = s := by
  induction s with
  | nil =>
    simp only [strIncludes, isPrefixOf_iff]
    constructor
    · rintro ⟨t, ht⟩
      rcases List.append_eq_nil.mp ht with ⟨rfl, rfl⟩
      exact ⟨[], [], rfl⟩
    · rintro ⟨a, b, hab⟩
      rcases List.append_eq_nil.mp hab with ⟨ha, rfl⟩
      rcases List.append_eq_nil.mp ha with ⟨rfl, rfl⟩
      exact ⟨[], rfl⟩
  | cons c rest ih =>
    rw [strIncludes_cons, Bool.or_eq_true, ih, isPrefixOf_iff]
    constructor
    · rintro (⟨t, ht⟩ | ⟨a, b, rfl⟩)
      · exact ⟨[], t, by simpa using ht⟩
      · exact ⟨c :: a, b, rfl⟩
    · rintro ⟨a, b, hab⟩
      cases a with
      | nil => exact Or.inl ⟨b, by simpa using hab⟩
      | cons x a' =>
        right
        refine ⟨a', b, ?_⟩
        have := hab
        simp only [List.cons_append] at this
        exact (List.cons.injEq _ _ _ _ ▸ this).2

theorem strIncludes_append_right {s pat : List Char} (t : List Char)
    (h : strIncludes s pat = true) : strIncludes (s ++ t) pat = true := by
  rcases (strIncludes_iff s pat).mp h with ⟨a, b, rfl⟩
  exact (strIncludes_iff _ _).mpr ⟨a, b ++ t, by simp⟩

theorem strIncludes_of_suffix {a b pat : List Char}
    (h : strIncludes (a ++ b) pat = false) : strIncludes b pat = false := by
  by_contra hb
  have hb' : strIncludes b pat = true := by
    cases hx : strIncludes b pat with
    | true => rfl
    | false => exact absurd hx hb
  rcases (strIncludes_iff b pat).mp hb' with ⟨x, y, rfl⟩
  have : strIncludes (a ++ (x ++ pat ++ y)) pat = true :=
    (strIncludes_iff _ _).mpr ⟨a ++ x, y, by simp⟩
  rw [h] at this
  exact Bool.false_ne_true this

theorem strIncludes_length {s pat : List Char} (h : strIncludes s pat = true) :
    pat.length ≤ s.length := by
  rcases (strIncludes_iff s pat).mp h with ⟨a, b, rfl⟩
  simp only [List.length_append]
  omega

theorem isPrefixOf_take {p s f : List Char} (h : p.isPrefixOf (s ++ f) = true)
    (hlen : p.length ≤ s.length) : p.isPrefixOf s = true := by
  rcases (isPrefixOf_iff p (s ++ f)).mp h with ⟨t, ht⟩
  have hp : p = s.take p.length := by
    have h1 : (p ++ t).take p.length = p := by
      rw [List.take_append_eq_append_take]
      simp
    have h2 : (s ++ f).take p.length = s.take p.length := by
      rw [List.take_append_eq_append_take]
      have : p.length - s.length = 0 := Nat.sub_eq_zero_of_le hlen
      simp [this]
    rw [ht] at h1
    rw [h2] at h1
    exact h1.symm
  refine (isPrefixOf_iff p s).mpr ⟨s.drop p.length, ?_⟩
  calc p ++ s.drop p.length = s.take p.length ++ s.drop p.length := by rw [← hp]
    _ = s := List.take_append_drop _ _

theorem isPrefixOf_append_right {p s : List Char} (f : List Char)
    (h : p.isPrefixOf s = true) : p.isPrefixOf (s ++ f) = true := by
  rcases (isPrefixOf_iff p s).mp h with ⟨t, rfl⟩
  exact (isPrefixOf_iff _ _).mpr ⟨t ++ f, by simp⟩

theorem replaceFirst_no_match {s pat : List Char} (repl : List Char)
    (h : strIncludes s pat = false) : replaceFirst s pat repl = s := by
  induction s with
  | nil =>
    have hp : pat.isPrefixOf ([] : List Char) = false := by
      simpa [strIncludes] using h
    simp [replaceFirst, hp]
  | cons c rest ih =>
    rw [strIncludes_cons, Bool.or_eq_false_iff] at h
    rw [replaceFirst, if_neg (by simp [h.1]), ih h.2]

theorem replaceFirst_cons (c : Char) (rest pat repl : List Char) :
    replaceFirst (c :: rest) pat repl =
      if pat.isPrefixOf (c :: rest) then repl ++ (c :: rest).drop pat.length
      else c :: replaceFirst rest pat repl := rfl

theorem replaceFirst_append {s pat : List Char} (t repl : List Char)
    (h : strIncludes s pat = true) :
    replaceFirst (s ++ t) pat repl = replaceFirst s pat repl ++ t := by
  induction s with
  | nil =>
    have hp : pat.isPrefixOf ([] : List Char) = true := by
      simpa [strIncludes] using h
    rcases (isPrefixOf_iff pat []).mp hp with ⟨u, hu⟩
    rcases List.append_eq_nil.mp hu with ⟨rfl, rfl⟩
    cases t with
    | nil => simp [replaceFirst]
    | cons x xs => simp [replaceFirst, List.isPrefixOf]
  | cons c rest ih =>
    have hcons : (c :: rest) ++ t = c :: (rest ++ t) := rfl
    by_cases hp : pat.isPrefixOf (c :: rest) = true
    · have hlen : pat.length ≤ (c :: rest).length := by
        rcases (isPrefixOf_iff pat (c :: rest)).mp hp with ⟨u, hu⟩
        rw [← hu]; simp
      have hp' : pat.isPrefixOf (c :: (rest ++ t)) = true := by
        have := isPrefixOf_append_right t hp
        rwa [hcons] at this
      rw [hcons, replaceFirst_cons, if_pos hp', replaceFirst_cons, if_pos hp]
      have hdrop : (c :: (rest ++ t)).drop pat.length =
          (c :: rest).drop pat.length ++ t := by
        rw [← hcons, List.drop_append_eq_append_drop]
        have h0 : pat.length - (c :: rest).length = 0 := Nat.sub_eq_zero_of_le hlen
        simp only [List.length_cons] at h0
        simp [h0]
      rw [hdrop, List.append_assoc]
    · have hrest : strIncludes rest pat = true := by
        rw [strIncludes_cons, Bool.or_eq_true] at h
        rcases h with h | h
        · exact absurd h hp
        · exact h
      have hlen : pat.length ≤ rest.length := strIncludes_length hrest
      have hp' : pat.isPrefixOf (c :: (rest ++ t)) = false := by
        cases hx : pat.isPrefixOf (c :: (rest ++ t)) with
        | false => rfl
        | true =>
          have hx' : pat.isPrefixOf ((c :: rest) ++ t) = true := by rwa [hcons]
          have : pat.isPrefixOf (c :: rest) = true :=
            isPrefixOf_take hx' (by simpa using Nat.le_succ_of_le hlen)
          exact absurd this (by simp [hp])
      rw [hcons, replaceFirst_cons, if_neg (by simp [hp']), replaceFirst_cons,
        if_neg (by simp [hp]), ih hrest]
      simp

theorem shift_flush {pat : List Char} (a b f repl : List Char)
    (hlen : pat.length ≤ b.length + 1)
    (hna : strIncludes (a ++ b) pat = false) :
    strIncludes (a ++ (b ++ f)) pat = strIncludes (b ++ f) pat ∧
      replaceFirst (a ++ (b ++ f)) pat repl = a ++ replaceFirst (b ++ f) pat repl := by
  induction a with
  | nil => simp
  | cons x a' ih =>
    have hna' : pat.isPrefixOf (x :: (a' ++ b)) = false ∧
        strIncludes (a' ++ b) pat = false := by
      have h1 : strIncludes (x :: (a' ++ b)) pat = false := hna
      rw [strIncludes_cons, Bool.or_eq_false_iff] at h1
      exact h1
    have hnp : pat.isPrefixOf (x :: (a' ++ (b ++ f))) = false := by
      cases hx : pat.isPrefixOf (x :: (a' ++ (b ++ f))) with
      | false => rfl
      | true =>
        have hx' : pat.isPrefixOf ((x :: (a' ++ b)) ++ f) = true := by
          have heq : (x :: (a' ++ b)) ++ f = x :: (a' ++ (b ++ f)) := by
            simp [List.append_assoc]
          rwa [heq]
        have hlen2 : pat.length ≤ (x :: (a' ++ b)).length := by
          simp only [List.length_cons, List.length_append]
          omega
        have : pat.isPrefixOf (x :: (a' ++ b)) = true := isPrefixOf_take hx' hlen2
        exact absurd this (by simp [hna'.1])
    have ihres := ih hna'.2
    have hstep : (x :: a') ++ (b ++ f) = x :: (a' ++ (b ++ f)) := rfl
    constructor
    · rw [hstep, strIncludes_cons, hnp, Bool.false_or, ihres.1]
    · rw [hstep, replaceFirst_cons, if_neg (by simp [hnp]), ihres.2]
      rfl

theorem replaceFirst_first_occ {s pat : List Char} (repl : List Char)
    (h : strIncludes s pat = true) :
    ∃ a b, s = a ++ pat ++ b ∧ replaceFirst s pat repl = a ++ repl ++ b ∧
      ∀ a' b', s = a' ++ pat ++ b' → a.length ≤ a'.length := by
  induction s with
  | nil =>
    have hp : pat.isPrefixOf ([] : List Char) = true := by
      simpa [strIncludes] using h
    rcases (isPrefixOf_iff pat []).mp hp with ⟨u, hu⟩
    rcases List.append_eq_nil.mp hu with ⟨rfl, rfl⟩
    exact ⟨[], [], rfl, by simp [replaceFirst], fun a' b' _ => Nat.zero_le _⟩
  | cons c rest ih =>
    by_cases hp : pat.isPrefixOf (c :: rest) = true
    · rcases (isPrefixOf_iff pat (c :: rest)).mp hp with ⟨u, hu⟩
      refine ⟨[], u, by simpa using hu.symm, ?_, fun a' b' _ => Nat.zero_le _⟩
      rw [replaceFirst, if_pos hp]
      have : (c :: rest).drop pat.length = u := by
        rw [← hu, List.drop_left]
      rw [this]
      simp
    · have hrest : strIncludes rest pat = true := by
        rw [strIncludes_cons, Bool.or_eq_true] at h
        rcases h with h | h
        · exact absurd h hp
        · exact h
      rcases ih hrest with ⟨a, b, hs, hr, hmin⟩
      refine ⟨c :: a, b, by simp [hs], ?_, ?_⟩
      · rw [replaceFirst, if_neg (by simp [hp]), hr]
        simp
      · intro a' b' h'
        cases a' with
        | nil =>
          exfalso
          have : pat.isPrefixOf (c :: rest) = true := by
            refine (isPrefixOf_iff _ _).mpr ⟨b', ?_⟩
            simpa using h'.symm
          exact absurd this (by simp [hp])
        | cons x a'' =>
          have hx : rest = a'' ++ pat ++ b' := by
            have := h'
            simp only [List.cons_append, List.cons.injEq] at this
            exact this.2
          have := hmin a'' b' hx
          simp only [List.length_cons]
          omega

theorem marker_length : marker.length = 7 := rfl

theorem transformInv_step {inp out c : List Char} {st : InjState}
    (h : TransformInv inp st out) :
    TransformInv (inp ++ c) (transformStep st c).1 (out ++ (transformStep st c).2) := by
  cases hst : st.injected with
  | true =>
    have h' : strIncludes inp marker = true ∧
        out ++ st.buffer = replaceFirst inp marker injectedTag := by
      rw [TransformInv, hst] at h
      exact h
    have hstep : transformStep st c = (⟨st.buffer ++ c, true⟩, []) := by
      simp [transformStep, hst]
    rw [hstep]
    show TransformInv (inp ++ c) ⟨st.buffer ++ c, true⟩ (out ++ [])
    rw [TransformInv]
    dsimp only
    refine ⟨strIncludes_append_right c h'.1, ?_⟩
    rw [replaceFirst_append c injectedTag h'.1, List.append_nil, ← h'.2]
    simp [List.append_assoc]
  | false =>
    have h' : strIncludes st.buffer marker = false ∧
        (∀ f, strIncludes (inp ++ f) marker = strIncludes (st.buffer ++ f) marker) ∧
        (∀ f, replaceFirst (inp ++ f) marker injectedTag =
          out ++ replaceFirst (st.buffer ++ f) marker injectedTag) := by
      rw [TransformInv, hst] at h
      exact h
    by_cases hm : strIncludes (st.buffer ++ c) marker = true
    · have hstep : transformStep st c =
          (⟨[], true⟩, replaceFirst (st.buffer ++ c) marker injectedTag) := by
        simp [transformStep, hst, hm]
      rw [hstep]
      show TransformInv (inp ++ c) ⟨[], true⟩
        (out ++ replaceFirst (st.buffer ++ c) marker injectedTag)
      rw [TransformInv]
      dsimp only
      refine ⟨?_, ?_⟩
      · rw [h'.2.1 c, hm]
      · rw [List.append_nil, h'.2.2 c]
    · by_cases hlen : 64 * 1024 < (st.buffer ++ c).length
      · have hlen' : 65536 < st.buffer.length + c.length := by
          simpa using hlen
        have hstep : transformStep st c =
            (⟨(st.buffer ++ c).drop (32 * 1024), false⟩,
              (st.buffer ++ c).take (32 * 1024)) := by
          simp [transformStep, hst, hm, hlen']
        rw [hstep]
        show TransformInv (inp ++ c)
          ⟨(st.buffer ++ c).drop (32 * 1024), false⟩
          (out ++ (st.buffer ++ c).take (32 * 1024))
        rw [TransformInv]
        dsimp only
        have hm' : strIncludes (st.buffer ++ c) marker = false := by
          cases hx : strIncludes (st.buffer ++ c) marker with
          | false => rfl
          | true => exact absurd hx hm
        have hsplit : (st.buffer ++ c).take (32 * 1024) ++
            (st.buffer ++ c).drop (32 * 1024) = st.buffer ++ c :=
          List.take_append_drop _ _
        have hdlen : marker.length ≤ ((st.buffer ++ c).drop (32 * 1024)).length + 1 := by
          rw [marker_length, List.length_drop]
          simp only [List.length_append]
          omega
        have hshift := fun f => shift_flush ((st.buffer ++ c).take (32 * 1024))
          ((st.buffer ++ c).drop (32 * 1024)) f injectedTag hdlen
          (by rw [hsplit]; exact hm')
        refine ⟨?_, ?_, ?_⟩
        · exact strIncludes_of_suffix (a := (st.buffer ++ c).take (32 * 1024))
            (by rw [hsplit]; exact hm')
        · intro f
          calc strIncludes ((inp ++ c) ++ f) marker
              = strIncludes ((st.buffer ++ c) ++ f) marker := by
                rw [List.append_assoc inp c f, h'.2.1 (c ++ f), List.append_assoc]
            _ = strIncludes ((st.buffer ++ c).take (32 * 1024) ++
                  ((st.buffer ++ c).drop (32 * 1024) ++ f)) marker := by
                rw [← List.append_assoc, hsplit]
            _ = strIncludes ((st.buffer ++ c).drop (32 * 1024) ++ f) marker :=
                (hshift f).1
        · intro f
          calc replaceFirst ((inp ++ c) ++ f) marker injectedTag
              = out ++ replaceFirst ((st.buffer ++ c) ++ f) marker injectedTag := by
                rw [List.append_assoc inp c f, h'.2.2 (c ++ f), List.append_assoc]
            _ = out ++ replaceFirst ((st.buffer ++ c).take (32 * 1024) ++
                  ((st.buffer ++ c).drop (32 * 1024) ++ f)) marker injectedTag := by
                rw [← List.append_assoc, hsplit]
            _ = out ++ ((st.buffer ++ c).take (32 * 1024) ++
                  replaceFirst ((st.buffer ++ c).drop (32 * 1024) ++ f) marker
                    injectedTag) := by
                rw [(hshift f).2]
            _ = (out ++ (st.buffer ++ c).take (32 * 1024)) ++
                  replaceFirst ((st.buffer ++ c).drop (32 * 1024) ++ f) marker
                    injectedTag := by
                rw [List.append_assoc]
      · have hlen' : ¬ 65536 < st.buffer.length + c.length := by
          simpa using hlen
        have hstep : transformStep st c = (⟨st.buffer ++ c, false⟩, []) := by
          simp [transformStep, hst, hm, hlen']
        rw [hstep]
        show TransformInv (inp ++ c) ⟨st.buffer ++ c, false⟩ (out ++ [])
        rw [TransformInv]
        dsimp only
        have hm' : strIncludes (st.buffer ++ c) marker = false := by
          cases hx : strIncludes (st.buffer ++ c) marker with
          | false => rfl
          | true => exact absurd hx hm
        refine ⟨hm', ?_, ?_⟩
        · intro f
          rw [List.append_assoc inp c f, h'.2.1 (c ++ f), List.append_assoc]
        · intro f
          simp only [List.nil_append, List.append_nil]
          rw [List.append_assoc inp c f, h'.2.2 (c ++ f), List.append_assoc]

theorem transformInv_run {inp out : List Char} {st : InjState}
    (chunks : List (List Char)) (h : TransformInv inp st out) :
    TransformInv (inp ++ chunks.flatten) (runTransform st chunks).1
      (out ++ (runTransform st chunks).2) := by
  induction chunks generalizing inp st out with
  | nil => simpa [runTransform] using h
  | cons c cs ih =>
    have h1 := transformInv_step (c := c) h
    have h2 := ih h1
    simp only [runTransform, List.flatten_cons]
    simpa [List.append_assoc] using h2

theorem processAll_spec (chunks : List (List Char)) :
    processAll chunks =
      if strIncludes chunks.flatten marker then
        replaceFirst chunks.flatten marker injectedTag
      else chunks.flatten ++ LIVE_RELOAD_SCRIPT.data := by
  have h0 : TransformInv [] ⟨[], false⟩ [] := by
    rw [TransformInv]
    refine ⟨by decide, fun f => rfl, fun f => rfl⟩
  have h := transformInv_run chunks h0
  simp only [List.nil_append] at h
  rw [processAll]
  cases hinj : (runTransform ⟨[], false⟩ chunks).1.injected with
  | true =>
    rw [TransformInv, hinj] at h
    rw [if_pos h.1, flushStep, hinj]
    simpa using h.2
  | false =>
    rw [TransformInv, hinj] at h
    have hjoin : strIncludes chunks.flatten marker = false := by
      have := h.2.1 []
      simpa [h.1] using this
    have hid : chunks.flatten = (runTransform ⟨[], false⟩ chunks).2 ++
        (runTransform ⟨[], false⟩ chunks).1.buffer := by
      have := h.2.2 []
      rw [List.append_nil, List.append_nil, replaceFirst_no_match injectedTag hjoin,
        replaceFirst_no_match injectedTag h.1] at this
      exact this
    rw [if_neg (by simp [hjoin]), flushStep, hinj]
    simp only [Bool.not_false, if_pos]
    rw [hid, List.append_assoc]

theorem transformStep_injected_mono {st : InjState} (c : List Char)
    (h : st.injected = true) : (transformStep st c).1.injected = true := by
  simp [transformStep, h]

theorem runTransform_injected_mono {st : InjState} (chunks : List (List Char))
    (h : st.injected = true) : (runTransform st chunks).1.injected = true := by
  induction chunks generalizing st with
  | nil => simpa [runTransform] using h
  | cons c cs ih =>
    simp only [runTransform]
    exact ih (transformStep_injected_mono c h)

theorem runTransform_buffer_bound {st : InjState} (chunks : List (List Char))
    (hinj : st.injected = false) (hbuf : st.buffer.length ≤ 64 * 1024)
    (hchunks : ∀ ch ∈ chunks, ch.length ≤ 32 * 1024)
    (hfinal : (runTransform st chunks).1.injected = false) :
    (runTransform st chunks).1.buffer.length ≤ 64 * 1024 := by
  induction chunks generalizing st with
  | nil => simpa [runTransform] using hbuf
  | cons c cs ih =>
    have hclen : c.length ≤ 32 * 1024 := hchunks c (List.mem_cons_self c cs)
    have hrest : ∀ ch ∈ cs, ch.length ≤ 32 * 1024 :=
      fun ch hm => hchunks ch (List.mem_cons_of_mem c hm)
    simp only [runTransform] at hfinal ⊢
    have hstepinj : (transformStep st c).1.injected = false := by
      cases hx : (transformStep st c).1.injected with
      | false => rfl
      | true => rw [runTransform_injected_mono cs hx] at hfinal; exact absurd hfinal (by simp)
    by_cases hm : strIncludes (st.buffer ++ c) marker = true
    · exfalso
      have : (transformStep st c).1.injected = true := by
        simp [transformStep, hinj, hm]
      rw [this] at hstepinj
      exact absurd hstepinj (by simp)
    · by_cases hlen : 65536 < st.buffer.length + c.length
      · have hstep : transformStep st c =
            (⟨(st.buffer ++ c).drop (32 * 1024), false⟩,
              (st.buffer ++ c).take (32 * 1024)) := by
          simp [transformStep, hinj, hm, hlen]
        rw [hstep]
        refine ih ?_ ?_ hrest ?_
        · rfl
        · simp only [List.length_drop, List.length_append]
          omega
        · rw [← hstep]; exact hfinal
      · have hstep : transformStep st c = (⟨st.buffer ++ c, false⟩, []) := by
          simp [transformStep, hinj, hm, hlen]
        rw [hstep]
        refine ih rfl ?_ hrest ?_
        · simp only [List.length_append]
          omega
        · rw [← hstep]; exact hfinal

/-- C2 (amended): for every character-level chunking whose concatenation
contains the closing-body marker, the complete transform output equals the
input with the injection snippet and a newline inserted immediately before
the first occurrence of the marker; the insertion happens exactly once and
no input character is lost or altered. -/
theorem c2_injects_before_first_marker (chunks : List (List Char))
    (h : strIncludes chunks.flatten marker = true) :
    ∃ a b, chunks.flatten = a ++ marker ++ b ∧
      (∀ a' b', chunks.flatten = a' ++ marker ++ b' → a.length ≤ a'.length) ∧
      processAll chunks = a ++ LIVE_RELOAD_SCRIPT.data ++ '\n' :: (marker ++ b) := by
  rcases replaceFirst_first_occ injectedTag h with ⟨a, b, hs, hr, hmin⟩
  refine ⟨a, b, hs, hmin, ?_⟩
  rw [processAll_spec, if_pos h, hr]
  simp [injectedTag, List.append_assoc]

theorem c2_injects_before_first_marker_witness :
    strIncludes ["<p>Hi</bo".data, "dy></p>".data].flatten marker = true ∧
    ∃ a b, ["<p>Hi</bo".data, "dy></p>".data].flatten = a ++ marker ++ b ∧
      (∀ a' b', ["<p>Hi</bo".data, "dy></p>".data].flatten = a' ++ marker ++ b' →
        a.length ≤ a'.length) ∧
      processAll ["<p>Hi</bo".data, "dy></p>".data] =
        a ++ LIVE_RELOAD_SCRIPT.data ++ '\n' :: (marker ++ b) :=
  ⟨by decide, c2_injects_before_first_marker _ (by decide)⟩

/-- C2 (counterexample to the byte-level claim): splitting the two-byte
UTF-8 character `é` across a chunk boundary corrupts it to two replacement
characters, so the output is not the input with the snippet inserted before
the first marker, even though the input contains the marker. -/
theorem c2_byte_chunking_counterexample :
    strIncludes (utf8DecodeNode ([[0xC3], 0xA9 :: marker.map Char.toNat].flatten))
      marker = true ∧
    byteProcessAll [[0xC3], 0xA9 :: marker.map Char.toNat] ≠
      replaceFirst (utf8DecodeNode ([[0xC3], 0xA9 :: marker.map Char.toNat].flatten))
        marker injectedTag := by
  constructor
  · decide
  · decide

/-- C3 (amended): the transform output depends only on the chunk-wise
decoded character stream: any two byte chunkings that decode to the same
character sequence produce identical output. In particular chunkings that
split only at character boundaries (including splits inside the ASCII
marker) cannot change the output. -/
theorem c3_chunking_invariance (ca cb : List (List Nat))
    (h : (ca.map utf8DecodeNode).flatten = (cb.map utf8DecodeNode).flatten) :
    byteProcessAll ca = byteProcessAll cb := by
  rw [byteProcessAll, byteProcessAll, processAll_spec, processAll_spec, h]

theorem c3_chunking_invariance_witness :
    ([("a</bo".data.map Char.toNat), ("dy>b".data.map Char.toNat)].map
        utf8DecodeNode).flatten =
      ([("a</body>b".data.map Char.toNat)].map utf8DecodeNode).flatten ∧
    byteProcessAll [("a</bo".data.map Char.toNat), ("dy>b".data.map Char.toNat)] =
      byteProcessAll [("a</body>b".data.map Char.toNat)] :=
  ⟨by decide, c3_chunking_invariance _ _ (by decide)⟩

/-- C3 (counterexample to the byte-level claim): the same byte sequence
`0xC3 0xA9` (the UTF-8 encoding of `é`) produces different outputs when the
two bytes arrive in separate chunks, because each chunk is decoded
independently. -/
theorem c3_chunking_counterexample :
    ([[0xC3], [0xA9]] : List (List Nat)).flatten = [[0xC3, 0xA9]].flatten ∧
    byteProcessAll [[0xC3], [0xA9]] ≠ byteProcessAll [[0xC3, 0xA9]] := by
  constructor
  · rfl
  · decide

/-- C5: for every character-level input containing no occurrence of the
closing-body marker (the empty input included), the complete transform
output is the input with the injection snippet appended at the end, and the
snippet is delivered exactly once. -/
theorem c5_no_marker_appends_snippet (chunks : List (List Char))
    (h : strIncludes chunks.flatten marker = false) :
    processAll chunks = chunks.flatten ++ LIVE_RELOAD_SCRIPT.data := by
  rw [processAll_spec, if_neg (by simp [h])]

theorem c5_no_marker_appends_snippet_witness :
    (strIncludes ([] : List (List Char)).flatten marker = false ∧
      processAll [] = ([] : List (List Char)).flatten ++ LIVE_RELOAD_SCRIPT.data) ∧
    (strIncludes ["<p>x</p>".data].flatten marker = false ∧
      processAll ["<p>x</p>".data] =
        ["<p>x</p>".data].flatten ++ LIVE_RELOAD_SCRIPT.data) :=
  ⟨⟨by decide, c5_no_marker_appends_snippet [] (by decide)⟩,
   ⟨by decide, c5_no_marker_appends_snippet ["<p>x</p>".data] (by decide)⟩⟩

/-- C10: the marker search is case-sensitive and matches exactly the seven
characters `'</body>'`: an input containing a differently-cased closing tag
such as `'</BODY>'` but no exact `'</body>'` gets no in-place injection —
the snippet is appended at the very end at stream completion. -/
theorem c10_marker_case_sensitive (chunks : List (List Char))
    (hupper : strIncludes chunks.flatten "</BODY>".data = true)
    (hlower : strIncludes chunks.flatten marker = false) :
    processAll chunks = chunks.flatten ++ LIVE_RELOAD_SCRIPT.data ∧
      marker = ['<', '/', 'b', 'o', 'd', 'y', '>'] ∧
      strIncludes "</BODY>".data marker = false := by
  refine ⟨?_, by decide, by decide⟩
  rw [processAll_spec, if_neg (by simp [hlower])]

theorem c10_marker_case_sensitive_witness :
    strIncludes ["<p>x</BODY>".data].flatten "</BODY>".data = true ∧
    strIncludes ["<p>x</BODY>".data].flatten marker = false ∧
    (processAll ["<p>x</BODY>".data] =
        ["<p>x</BODY>".data].flatten ++ LIVE_RELOAD_SCRIPT.data ∧
      marker = ['<', '/', 'b', 'o', 'd', 'y', '>'] ∧
      strIncludes "</BODY>".data marker = false) :=
  ⟨by decide, by decide, c10_marker_case_sensitive _ (by decide) (by decide)⟩

/-- C4 (counterexample): the claimed bound fails for bytes arriving after
the injection. After the marker arrives as the first chunk, a 65537-long
chunk and then a 1-long chunk leave 65538 characters in the buffer, above
64 KiB plus the current chunk length. -/
theorem c4_buffer_bound_counterexample :
    (runTransform ⟨[], false⟩
        [marker, List.replicate 65537 'a', ['a']]).1.buffer.length = 65538 ∧
      ¬ (65538 ≤ 64 * 1024 + 1) := by
  have hm : strIncludes marker marker = true := by decide
  have h1 : (transformStep ⟨[], false⟩ marker).1 = ⟨[], true⟩ := by
    simp [transformStep, hm]
  have h2 : ∀ (b c : List Char), transformStep ⟨b, true⟩ c = (⟨b ++ c, true⟩, []) := by
    intro b c
    simp [transformStep]
  have hfst : ∀ (s : InjState) (c : List Char) (cs : List (List Char)),
      (runTransform s (c :: cs)).1 = (runTransform (transformStep s c).1 cs).1 :=
    fun _ _ _ => rfl
  constructor
  · have e : (runTransform ⟨[], false⟩
        [marker, List.replicate 65537 'a', ['a']]).1 =
        ⟨([] ++ List.replicate 65537 'a') ++ ['a'], true⟩ := by
      calc (runTransform ⟨[], false⟩ [marker, List.replicate 65537 'a', ['a']]).1
          = (runTransform ⟨[], true⟩ [List.replicate 65537 'a', ['a']]).1 := by
            rw [hfst, h1]
        _ = (runTransform ⟨[] ++ List.replicate 65537 'a', true⟩ [['a']]).1 := by
            rw [hfst, h2]
        _ = (runTransform ⟨([] ++ List.replicate 65537 'a') ++ ['a'], true⟩ []).1 := by
            rw [hfst, h2]
        _ = ⟨([] ++ List.replicate 65537 'a') ++ ['a'], true⟩ := rfl
    rw [e]
    show (([] ++ List.replicate 65537 'a') ++ ['a']).length = 65538
    rw [List.length_append, List.length_append, List.length_replicate,
      List.length_nil, List.length_singleton]
  · norm_num

/-- C4 (amended): before the injection has happened, and provided every
chunk is at most 32 KiB long, the retained buffer stays at or below 64 KiB
after every `_transform` step; after the injection the buffer accumulates
all further input until `_flush`, and chunks above 32 KiB can likewise
outgrow any such bound, so the claim only holds in this restricted form. -/
theorem c4_buffer_bound_amended (chunks : List (List Char))
    (hchunks : ∀ ch ∈ chunks, ch.length ≤ 32 * 1024)
    (hfinal : (runTransform ⟨[], false⟩ chunks).1.injected = false) :
    (runTransform ⟨[], false⟩ chunks).1.buffer.length ≤ 64 * 1024 :=
  runTransform_buffer_bound chunks rfl (by simp) hchunks hfinal

theorem c4_buffer_bound_amended_witness :
    (∀ ch ∈ [['a', 'b'], ['c']], List.length ch ≤ 32 * 1024) ∧
    (runTransform ⟨[], false⟩ [['a', 'b'], ['c']]).1.injected = false ∧
    (runTransform ⟨[], false⟩ [['a', 'b'], ['c']]).1.buffer.length ≤ 64 * 1024 :=
  ⟨by decide, by decide, c4_buffer_bound_amended _ (by decide) (by decide)⟩

theorem commonPrefixLen_le (fs ts : List (List Char)) :
    commonPrefixLen fs ts ≤ fs.length := by
  induction fs generalizing ts with
  | nil => cases ts <;> simp [commonPrefixLen]
  | cons a as ih =>
    cases ts with
    | nil => simp [commonPrefixLen]
    | cons b bs =>
      rw [commonPrefixLen]
      by_cases hab : a = b
      · rw [if_pos hab]
        simpa using ih bs
      · rw [if_neg hab]
        simp

theorem commonPrefixLen_full {fs ts : List (List Char)}
    (h : commonPrefixLen fs ts = fs.length) : ∃ u, fs ++ u = ts := by
  induction fs generalizing ts with
  | nil => exact ⟨ts, rfl⟩
  | cons a as ih =>
    cases ts with
    | nil => simp [commonPrefixLen] at h
    | cons b bs =>
      rw [commonPrefixLen] at h
      by_cases hab : a = b
      · rw [if_pos hab] at h
        simp only [List.length_cons, Nat.add_right_cancel_iff] at h
        rcases ih h with ⟨u, hu⟩
        exact ⟨u, by rw [hab, List.cons_append, hu]⟩
      · rw [if_neg hab] at h
        simp at h

theorem intercalateSlash_dotdot (rest : List (List Char)) :
    (['.', '.'] : List Char).isPrefixOf (intercalateSlash (['.', '.'] :: rest)) = true := by
  cases rest with
  | nil => decide
  | cons r rs =>
    rw [show intercalateSlash (['.', '.'] :: r :: rs) =
      ['.', '.'] ++ '/' :: intercalateSlash (r :: rs) from rfl]
    exact (isPrefixOf_iff _ _).mpr ⟨'/' :: intercalateSlash (r :: rs), rfl⟩

theorem pathRelative_no_dotdot {f t : String}
    (hss : strStartsWith (pathRelative f t) ".." = false) :
    ∃ u, absSegs f ++ u = absSegs t := by
  by_cases hk : ((absSegs f).length - commonPrefixLen (absSegs f) (absSegs t)) = 0
  · have hle := commonPrefixLen_le (absSegs f) (absSegs t)
    exact commonPrefixLen_full (by omega)
  · exfalso
    have hrep : List.replicate ((absSegs f).length -
        commonPrefixLen (absSegs f) (absSegs t)) (['.', '.'] : List Char) =
        ['.', '.'] :: List.replicate ((absSegs f).length -
          commonPrefixLen (absSegs f) (absSegs t) - 1) ['.', '.'] := by
      cases hx : (absSegs f).length - commonPrefixLen (absSegs f) (absSegs t) with
      | zero => exact absurd hx hk
      | succ n => rw [List.replicate_succ]; simp
    have : strStartsWith (pathRelative f t) ".." = true := by
      rw [pathRelative]
      show (String.mk ['.', '.']).data.isPrefixOf
        (String.mk (intercalateSlash (List.replicate _ _ ++ _))).data = true
      rw [show (String.mk ['.', '.']).data = ['.', '.'] from rfl,
        show ∀ l, (String.mk l).data = l from fun _ => rfl]
      rw [hrep, List.cons_append]
      exact intercalateSlash_dotdot _
    rw [hss] at this
    exact Bool.false_ne_true this

/-- C1: whenever `resolveRequestToFilePath` succeeds, the returned path's
relative path from the served root is nonempty, does not start with `'..'`,
and is not absolute — so its sanitized segments extend the root's segments
— and whenever resolution is rejected the request handler answers with the
403 response. -/
theorem c1_confinement (td u : String) :
    (∀ p, resolveRequestToFilePath td u = some p →
      pathRelative td p ≠ "" ∧
      strStartsWith (pathRelative td p) ".." = false ∧
      pathIsAbsolute (pathRelative td p) = false ∧
      ∃ t, absSegs td ++ t = absSegs p) ∧
    (∀ st rd, resolveRequestToFilePath td u = none →
      requestHandler td ⟨some u, "GET"⟩ st rd = sendError 403 "Forbidden") := by
  constructor
  · intro p hp
    rw [resolveRequestToFilePath] at hp
    by_cases hin : isPathInside td
        (pathJoin td (safeDecodeURIComponent (requestPathNormalized u))) = true
    · rw [if_pos hin] at hp
      have hpeq : pathJoin td (safeDecodeURIComponent (requestPathNormalized u)) = p :=
        Option.some.inj hp
      rw [← hpeq]
      rw [isPathInside] at hin
      simp only [Bool.and_eq_true, Bool.not_eq_true'] at hin
      refine ⟨?_, hin.1.2, hin.2, pathRelative_no_dotdot hin.1.2⟩
      intro hcontra
      have := hin.1.1
      rw [hcontra] at this
      simp at this
    · rw [if_neg hin] at hp
      exact absurd hp (by simp)
  · intro st rd hn
    simp [requestHandler, hn]

theorem c1_confinement_witness :
    (resolveRequestToFilePath "/srv/root" "/index.html" = some "/srv/root/index.html" ∧
      (pathRelative "/srv/root" "/srv/root/index.html" ≠ "" ∧
        strStartsWith (pathRelative "/srv/root" "/srv/root/index.html") ".." = false ∧
        pathIsAbsolute (pathRelative "/srv/root" "/srv/root/index.html") = false ∧
        ∃ t, absSegs "/srv/root" ++ t = absSegs "/srv/root/index.html")) ∧
    (resolveRequestToFilePath "/srv/root" "/../../etc/passwd" = none ∧
      requestHandler "/srv/root" ⟨some "/../../etc/passwd", "GET"⟩
        StatResult.statFile (ReadOutcome.ok []) = sendError 403 "Forbidden") :=
  ⟨⟨by decide, (c1_confinement "/srv/root" "/index.html").1 _ (by decide)⟩,
   ⟨by decide, (c1_confinement "/srv/root" "/../../etc/passwd").2 _ _ (by decide)⟩⟩

/-- C8: a percent-decoding failure never fails the request: resolution is
total, `safeDecodeURIComponent` falls back to the raw string, and on decode
failure resolution proceeds with the undecoded path, so the only remaining
rejection is the confinement check. -/
theorem c8_decode_failure_fallback :
    (∀ s, decodeURIComponentOpt s = none → safeDecodeURIComponent s = s) ∧
    (∀ td u, decodeURIComponentOpt (requestPathNormalized u) = none →
      resolveRequestToFilePath td u =
        (if isPathInside td (pathJoin td (requestPathNormalized u)) then
          some (pathJoin td (requestPathNormalized u)) else none)) := by
  constructor
  · intro s h
    simp [safeDecodeURIComponent, h]
  · intro td u h
    have hsafe : safeDecodeURIComponent (requestPathNormalized u) =
        requestPathNormalized u := by
      simp [safeDecodeURIComponent, h]
    rw [resolveRequestToFilePath, hsafe]

theorem c8_decode_failure_fallback_witness :
    (decodeURIComponentOpt "%zz" = none ∧ safeDecodeURIComponent "%zz" = "%zz") ∧
    (decodeURIComponentOpt (requestPathNormalized "/%zz") = none ∧
      resolveRequestToFilePath "/srv/root" "/%zz" =
        (if isPathInside "/srv/root" (pathJoin "/srv/root" (requestPathNormalized "/%zz")) then
          some (pathJoin "/srv/root" (requestPathNormalized "/%zz")) else none)) :=
  ⟨⟨by decide, c8_decode_failure_fallback.1 "%zz" (by decide)⟩,
   ⟨by decide, c8_decode_failure_fallback.2 "/srv/root" "/%zz" (by decide)⟩⟩

theorem bodyBytes_body_cons (s : List Char) (evs : List HttpEvent) :
    bodyBytes (HttpEvent.body s :: evs) = s ++ bodyBytes evs := rfl

theorem bodyBytes_header_cons (n : Nat) (evs : List HttpEvent) :
    bodyBytes (HttpEvent.header n :: evs) = bodyBytes evs := rfl

theorem bodyBytes_body_map (chunks : List (List Char)) :
    bodyBytes (chunks.map HttpEvent.body ++ [HttpEvent.endResponse]) = chunks.flatten := by
  induction chunks with
  | nil => rfl
  | cons c cs ih =>
    rw [List.map_cons, List.cons_append, bodyBytes_body_cons, ih, List.flatten_cons]

/-- C6: the read-error callback yields exactly one of two outcomes — a 500
response when headers are not yet sent, a bare termination when they are —
and on the serving path a read error always happens after the 200 header
has been written, so the stream is terminated with no header or body
written after the error and no 500 is ever produced there. -/
theorem c6_read_error_handling :
    (∀ hs : Bool,
      (hs = false ∧ readStreamErrorHandler hs = sendError 500 "Internal Server Error") ∨
      (hs = true ∧ readStreamErrorHandler hs = [HttpEvent.endResponse])) ∧
    (∀ td u fp pre, resolveRequestToFilePath td u = some fp →
      ∃ bodies : List (List Char),
        requestHandler td ⟨some u, "GET"⟩ StatResult.statFile (ReadOutcome.readError pre) =
          HttpEvent.header 200 :: bodies.map HttpEvent.body ++ [HttpEvent.endResponse]) := by
  constructor
  · intro hs
    cases hs with
    | false => exact Or.inl ⟨rfl, rfl⟩
    | true => exact Or.inr ⟨rfl, rfl⟩
  · intro td u fp pre hres
    by_cases hext : strToLower (extname fp) = ".html"
    · refine ⟨[(runTransform ⟨[], false⟩ pre).2], ?_⟩
      simp [requestHandler, hres, hext, readStreamErrorHandler, hasHeader]
    · refine ⟨pre, ?_⟩
      simp [requestHandler, hres, hext, readStreamErrorHandler, hasHeader]

theorem c6_read_error_handling_witness :
    (readStreamErrorHandler false = sendError 500 "Internal Server Error" ∨
      readStreamErrorHandler false = [HttpEvent.endResponse]) ∧
    (resolveRequestToFilePath "/srv/root" "/index.html" = some "/srv/root/index.html" ∧
      ∃ bodies : List (List Char),
        requestHandler "/srv/root" ⟨some "/index.html", "GET"⟩
            StatResult.statFile (ReadOutcome.readError [['<', 'p', '>']]) =
          HttpEvent.header 200 :: bodies.map HttpEvent.body ++ [HttpEvent.endResponse]) :=
  ⟨Or.elim (c6_read_error_handling.1 false) (fun h => Or.inl h.2) (fun h => Or.inr h.2),
   by decide,
   c6_read_error_handling.2 "/srv/root" "/index.html" "/srv/root/index.html"
     [['<', 'p', '>']] (by decide)⟩

/-- C9: a served file whose lowercased extension is not `.html` is piped
raw: the response is the 200 header followed by the unmodified chunks, and
the delivered body bytes are exactly the file's bytes. -/
theorem c9_non_html_passthrough (td u fp : String) (chunks : List (List Char))
    (hres : resolveRequestToFilePath td u = some fp)
    (hext : strToLower (extname fp) ≠ ".html") :
    requestHandler td ⟨some u, "GET"⟩ StatResult.statFile (ReadOutcome.ok chunks) =
      HttpEvent.header 200 :: chunks.map HttpEvent.body ++ [HttpEvent.endResponse] ∧
    bodyBytes (requestHandler td ⟨some u, "GET"⟩ StatResult.statFile
      (ReadOutcome.ok chunks)) = chunks.flatten := by
  have h1 : requestHandler td ⟨some u, "GET"⟩ StatResult.statFile (ReadOutcome.ok chunks) =
      HttpEvent.header 200 :: chunks.map HttpEvent.body ++ [HttpEvent.endResponse] := by
    simp [requestHandler, hres, hext]
  refine ⟨h1, ?_⟩
  rw [h1]
  exact bodyBytes_body_map chunks

theorem c9_non_html_passthrough_witness :
    resolveRequestToFilePath "/srv/root" "/a.png" = some "/srv/root/a.png" ∧
    strToLower (extname "/srv/root/a.png") ≠ ".html" ∧
    (requestHandler "/srv/root" ⟨some "/a.png", "GET"⟩ StatResult.statFile
        (ReadOutcome.ok [['x', 'y'], ['z']]) =
      HttpEvent.header 200 :: [['x', 'y'], ['z']].map HttpEvent.body ++
        [HttpEvent.endResponse] ∧
    bodyBytes (requestHandler "/srv/root" ⟨some "/a.png", "GET"⟩ StatResult.statFile
      (ReadOutcome.ok [['x', 'y'], ['z']])) = [['x', 'y'], ['z']].flatten) :=
  ⟨by decide, by decide,
   c9_non_html_passthrough "/srv/root" "/a.png" "/srv/root/a.png"
     [['x', 'y'], ['z']] (by decide) (by decide)⟩

theorem broadcastReload_eq (clients : List WsClient) :
    broadcastReload clients =
      (clients.filter fun c => decide (c.readyState = WsReadyState.opened)).map
        (fun c => wsSend c "reload") := by
  have aux : ∀ (cs : List WsClient) (acc : List SendAttempt),
      cs.foldl (fun acc client =>
        if client.readyState = WsReadyState.opened then acc ++ [wsSend client "reload"]
        else acc) acc =
      acc ++ (cs.filter fun c => decide (c.readyState = WsReadyState.opened)).map
        (fun c => wsSend c "reload") := by
    intro cs
    induction cs with
    | nil => intro acc; simp
    | cons c cs ih =>
      intro acc
      by_cases hc : c.readyState = WsReadyState.opened
      · simp [List.foldl_cons, hc, ih, List.filter_cons, List.append_assoc]
      · simp [List.foldl_cons, hc, ih, List.filter_cons]
  simpa [broadcastReload] using aux clients []

/-- C7: a `'change'` watch event broadcasts the exact message `'reload'` to
every currently open client channel and to no other; any other event type
broadcasts nothing; and a failed or already-disconnected client (skipped by
the OPEN check, or recorded as an undelivered attempt) does not prevent the
attempt to every other open client — the broadcast is a total function of
the registry, never an exception. -/
theorem c7_broadcast_reload (eventType : String) (clients : List WsClient) :
    (eventType = "change" → watchCallback eventType clients =
      (clients.filter fun c => decide (c.readyState = WsReadyState.opened)).map
        (fun c => wsSend c "reload")) ∧
    (eventType ≠ "change" → watchCallback eventType clients = []) ∧
    (∀ c ∈ clients, c.readyState = WsReadyState.opened →
      wsSend c "reload" ∈ watchCallback "change" clients) ∧
    (∀ a ∈ watchCallback "change" clients, a.message = "reload") := by
  refine ⟨?_, ?_, ?_, ?_⟩
  · intro h
    rw [watchCallback, if_pos h, broadcastReload_eq]
  · intro h
    rw [watchCallback, if_neg h]
  · intro c hc hopen
    rw [watchCallback, if_pos rfl, broadcastReload_eq]
    exact List.mem_map_of_mem _ (List.mem_filter.mpr ⟨hc, by simp [hopen]⟩)
  · intro a ha
    rw [watchCallback, if_pos rfl, broadcastReload_eq] at ha
    rcases List.mem_map.mp ha with ⟨c, _, rfl⟩
    rfl

theorem c7_broadcast_reload_witness :
    (watchCallback "change"
        [⟨1, WsReadyState.opened, false⟩, ⟨2, WsReadyState.closed, true⟩,
          ⟨3, WsReadyState.opened, true⟩] =
      ([⟨1, WsReadyState.opened, false⟩, ⟨2, WsReadyState.closed, true⟩,
          ⟨3, WsReadyState.opened, true⟩].filter fun c =>
        decide (c.readyState = WsReadyState.opened)).map (fun c => wsSend c "reload")) ∧
    (watchCallback "rename" [⟨1, WsReadyState.opened, true⟩] = []) ∧
    (wsSend ⟨3, WsReadyState.opened, true⟩ "reload" ∈ watchCallback "change"
      [⟨1, WsReadyState.opened, false⟩, ⟨2, WsReadyState.closed, true⟩,
        ⟨3, WsReadyState.opened, true⟩]) :=
  ⟨(c7_broadcast_reload "change" _).1 rfl,
   (c7_broadcast_reload "rename" _).2.1 (by decide),
   (c7_broadcast_reload "change" _).2.2.1 _ (by decide) rfl⟩
